import Mathlib

/-!
# Verification of the `eired-display` compositing core

A shallow embedding, in Lean 4, of the character-grid compositing engine of
the `eired` repository (crate `eired-display`), together with theorems that
settle the frozen claims about it.

Modelling conventions:

* Rust `u16` quantities (coordinates, sizes, lengths) are modelled as `Nat`.
  All claim-relevant behaviour happens far below `2 ^ 16`; where a claim's
  truth hinges on saturation, underflow or an out-of-range slice (which
  panics in Rust), the behaviour is modelled explicitly: `Nat` subtraction
  is saturating exactly like `u16::saturating_sub` and `max`-based updates
  of the source, and every operation of the source that can panic (slice
  out of range, `drain` out of range, `u16` debug-mode underflow) is
  embedded as an `Option`-valued function returning `none` on the panic
  path.
* `crossterm::style::Color` is opaque to the core (stored and compared for
  equality, with a default value `Reset`); it is embedded as a small
  enumeration with decidable equality.
* `VecDeque` and `Vec` become `List`; `pop_front` takes the head,
  `push_back`/`extend` append at the tail, `Vec::pop` takes the last
  element.
-/

/-- Opaque style value (`crossterm::style::Color`): the core only stores it,
compares it for equality, and uses the default `Reset`. -/
inductive Color where
  | reset
  | red
  | blue
  | green
deriving DecidableEq, Repr

/-- `Cell` (src/cell.rs): one grid unit, a character plus foreground and
background style. -/
structure Cell where
  ch : Char
  fg : Color
  bg : Color
deriving DecidableEq, Repr

/-- `Cell::default()` (src/cell.rs): blank character with reset styles. -/
def Cell.default : Cell := ⟨' ', Color.reset, Color.reset⟩

/-- `Cell::new(ch)` (src/cell.rs): bare character with default styles. -/
def Cell.new (c : Char) : Cell := ⟨c, Color.reset, Color.reset⟩

/-- `Span` (src/span.rs): a single-row strip of cells.  The source keeps the
length in a separate `len: u16` field alongside the `VecDeque<Cell>`; the
embedding keeps both fields because several operations of the source update
them independently. -/
structure Span where
  len : Nat
  cells : List Cell
deriving DecidableEq, Repr

/-- `Span::from` / `Span::from_iter` (src/span.rs): builds a span by
`push_back`-ing every cell, so `len` equals the number of cells. -/
def Span.ofCells (cs : List Cell) : Span := ⟨cs.length, cs⟩

/-- Builds the span of a string the way `Span::from(&str)` does: one default
cell per character. -/
def Span.ofString (s : List Char) : Span := Span.ofCells (s.map Cell.new)

/-- `Span::is_empty` (src/span.rs): the tracked length is zero. -/
def Span.isEmpty (s : Span) : Bool := s.len == 0

/-- `Span::to_vec` (src/span.rs): copy of the cell sequence. -/
def Span.toVec (s : Span) : List Cell := s.cells

/-- `Span::truncate_front(num)` (src/span.rs):

```rust
let tmp = self.cells.drain(num as usize..).collect();
self.len = self.len().max(num) - num;
self.cells = tmp;
```

`VecDeque::drain(num..)` panics when `num` exceeds the number of stored
cells; the panic is modelled as `none`.  On the non-panicking path the kept
cells are the ones from index `num` on, and the `len` update saturates. -/
def Span.truncateFront (s : Span) (num : Nat) : Option Span :=
  if num ≤ s.cells.length then
    some ⟨max s.len num - num, s.cells.drop num⟩
  else
    none

/-- `Span::truncate_back(num)` (src/span.rs): saturating `len` update, then
`Vec::truncate` to that length (never panics). -/
def Span.truncateBack (s : Span) (num : Nat) : Span :=
  ⟨max s.len num - num, s.cells.take (max s.len num - num)⟩

/-- The per-cell loop of `Span::append` (src/span.rs): each source cell is
`mem::take`-n (pushed into the target, replaced in the source by
`Cell::default()`).  Returns (cells appended to the target, cells the source
is left holding). -/
def Span.appendGo (tcells : List Cell) : List Cell → List Cell × List Cell
  | [] => (tcells, [])
  | c :: rest =>
      let r := Span.appendGo (tcells ++ [c]) rest
      (r.1, Cell.default :: r.2)

/-- `Span::append(&mut self, source)` (src/span.rs):

```rust
self.len += source.len();
for cell in source.cells.iter_mut() {
    self.cells.push_back(mem::take(cell));
}
```

Returns the pair (target after, source after).  Note that the source's `len`
field is never touched and its cell list keeps its length (every cell is
replaced by the default cell). -/
def Span.append (t s : Span) : Span × Span :=
  let r := Span.appendGo t.cells s.cells
  (⟨t.len + s.len, r.1⟩, ⟨s.len, r.2⟩)

/-- `cells.get(i..j)` on a Rust slice: `some` of the sub-slice when
`i ≤ j ≤ cells.len()`, otherwise `none`. -/
def sliceGet (cells : List Cell) (i j : Nat) : Option (List Cell) :=
  if i ≤ j ∧ j ≤ cells.length then some ((cells.drop i).take (j - i)) else none

/-- `cells.get(i..)` on a Rust slice: `some` of the tail when
`i ≤ cells.len()`, otherwise `none`. -/
def tailGet (cells : List Cell) (i : Nat) : Option (List Cell) :=
  if i ≤ cells.length then some (cells.drop i) else none

/-- The loop of `Span::split_by` (src/span.rs).  State is (accumulated
result, current start index `i`); for each split index `j`, an in-range
`cells.get(i..j)` pushes one `some` fragment, and an out-of-range one pushes
`cells.get(i..)` (as an `Option`) followed by `none` — two elements. -/
def Span.splitByGo (cells : List Cell) : List Nat → Nat → List (Option Span) →
    List (Option Span) × Nat
  | [], i, res => (res, i)
  | j :: rest, i, res =>
      match sliceGet cells i j with
      | some cs => Span.splitByGo cells rest j (res ++ [some (Span.ofCells cs)])
      | none =>
          Span.splitByGo cells rest j
            (res ++ [(tailGet cells i).map Span.ofCells, none])

/-- `Span::split_by(indecies)` (src/span.rs).  After the loop the source
runs

```rust
if res.last().is_some() {
    res.push(cells.get(i..).map(|c| Span::from_iter(..)));
}
```

`res.last()` is an `Option<&Option<Span>>`, so `is_some()` merely tests that
the vector is non-empty. -/
def Span.splitBy (s : Span) (idxs : List Nat) : List (Option Span) :=
  let cells := s.toVec
  let r := Span.splitByGo cells idxs 0 []
  if r.1.isEmpty then r.1 else r.1 ++ [(tailGet cells r.2).map Span.ofCells]

/-! ## Placed spans and the conflict geometry (src/annot.rs) -/

/-- `Annot<Span>` (src/annot.rs): a span bound to a base coordinate.  A
span's size is `(len, 1)` (src/span.rs, `impl Annotate for Span`). -/
structure PSpan where
  x : Nat
  y : Nat
  span : Span
deriving DecidableEq, Repr

/-- `Annot::<Span>::width()`: the span's tracked length. -/
def PSpan.width (p : PSpan) : Nat := p.span.len

/-- `Annot::<Span>::is_empty()` (src/annot.rs): width or height zero; the
height of a span is always 1, so this is `width == 0`. -/
def PSpan.isEmpty (p : PSpan) : Bool := p.width == 0

/-- `Annot::outer_apex_pos()` (src/annot.rs): `base + size`, exclusive far
corner; for a placed span this is `(x + len, y + 1)`. -/
def PSpan.outerX (p : PSpan) : Nat := p.x + p.width

/-- `Annot::is_conflict` (src/annot.rs) for two placed spans: false if
either is empty, else the strict axis-aligned overlap test
`a.outer_x > b.x && b.outer_x > a.x && a.outer_y > b.y && b.outer_y > a.y`;
with both heights 1 the `y` conditions collapse to `a.y = b.y`. -/
def PSpan.isConflict (a b : PSpan) : Bool :=
  if a.isEmpty || b.isEmpty then false
  else
    decide (a.outerX > b.x) && decide (b.outerX > a.x) &&
      decide (a.y + 1 > b.y) && decide (b.y + 1 > a.y)

/-- `Annot::contains_pos(rel_x, rel_y)` (src/annot.rs): conflict test of the
box against a synthetic 1×1 box at `(rel_x, rel_y)`. -/
def PSpan.containsPos (p : PSpan) (rx ry : Nat) : Bool :=
  if p.isEmpty then false
  else
    decide (p.outerX > rx) && decide (rx + 1 > p.x) &&
      decide (p.y + 1 > ry) && decide (ry + 1 > p.y)

/-! ## Layer (src/layer.rs) -/

/-- `Layer` (src/layer.rs): cached width/height plus the vector of placed
spans. -/
structure Layer where
  width : Nat
  height : Nat
  spans : List PSpan
deriving DecidableEq, Repr

/-- `Layer::default()`. -/
def Layer.empty : Layer := ⟨0, 0, []⟩

/-- `Layer::push_span` (src/layer.rs, private): grow the cached size to the
span's outer apex and append the span. -/
def Layer.pushSpan (l : Layer) (p : PSpan) : Layer :=
  ⟨max l.width (p.x + p.width), max l.height (p.y + 1), l.spans ++ [p]⟩

/-- `Layer::resolve_conflict(base, overlap)` (src/layer.rs).  The source
indexes `parts[0]`, `parts[1]`, `parts[2]` of the `split_by` result; the
embedding uses `getD _ none`, which agrees with the source wherever the
source's `debug_assert!` on the fragment count holds (it does in every
branch reached below, since the split indices are then in range). -/
def Layer.resolveConflict (base overlap : PSpan) : List PSpan :=
  if ¬ base.isConflict overlap then [base]
  else
    let overlapBegin := overlap.x
    let overlapEnd := overlap.outerX
    let isIncludeBegin := base.containsPos overlapBegin base.y
    let isIncludeEnd := base.containsPos (overlapEnd - 1) base.y
    let solved : List (Option PSpan) :=
      match isIncludeBegin, isIncludeEnd with
      | true, true =>
          let relBegin := overlapBegin - base.x
          let relEnd := overlapEnd - base.x
          let parts := base.span.splitBy [relBegin, relEnd]
          [(parts.getD 0 none).map (fun p => ⟨base.x, base.y, p⟩),
            (parts.getD 2 none).map (fun p => ⟨overlapEnd, base.y, p⟩)]
      | true, false =>
          let relBegin := overlapBegin - base.x
          let parts := base.span.splitBy [relBegin]
          [(parts.getD 0 none).map (fun p => ⟨base.x, base.y, p⟩)]
      | false, true =>
          let relEnd := overlapEnd - base.x
          let parts := base.span.splitBy [relEnd]
          [(parts.getD 1 none).map (fun p => ⟨overlapEnd, base.y, p⟩)]
      | false, false => []
    solved.reduceOption

/-- `Layer::push_span_write` (src/layer.rs): pop every stored span (from the
back), resolve it against the new span, re-push the non-empty survivors,
then push the new span unconditionally. -/
def Layer.pushSpanWrite (l : Layer) (p : PSpan) : Layer :=
  if p.isEmpty then l
  else
    let tmp := l.spans.reverse.flatMap (fun s => Layer.resolveConflict s p)
    let base : Layer := ⟨l.width, l.height, []⟩
    let l2 := (tmp.filter (fun e => ¬ e.isEmpty)).foldl Layer.pushSpan base
    l2.pushSpan p

/-- The work-queue loop of `Layer::push_span_fixed` (src/layer.rs).  The
source loops `while let Some(tmp_elem) = tmp_deque.pop_front()`; each popped
item either survives (no conflict with any same-row existing span) or is
resolved against *each* conflicting existing span, all fragments being
re-enqueued.  The embedding adds explicit fuel and returns `none` when the
fuel runs out with the queue non-empty; on every `some` result it computes
exactly what the source's loop computes. -/
def Layer.pushFixedLoop (sameRow : List PSpan) :
    Nat → List PSpan → List PSpan → Option (List PSpan)
  | _, [], tmp => some tmp
  | 0, _ :: _, _ => none
  | fuel + 1, e :: rest, tmp =>
      let conflicts := sameRow.filter (fun s => s.isConflict e)
      if conflicts.isEmpty then
        Layer.pushFixedLoop sameRow fuel rest (tmp ++ [e])
      else
        Layer.pushFixedLoop sameRow fuel
          (rest ++ conflicts.flatMap (fun s => Layer.resolveConflict e s)) tmp

/-- `Layer::push_span_fixed` (src/layer.rs): existing spans are
authoritative; the candidate is clipped against the same-row existing spans
by the work-queue loop, empty leftovers are pruned from the stored spans,
and the non-empty surviving fragments are pushed. -/
def Layer.pushSpanFixed (fuel : Nat) (l : Layer) (p : PSpan) : Option Layer :=
  if p.isEmpty then some l
  else
    let sameRow := l.spans.filter (fun s => s.y == p.y)
    match Layer.pushFixedLoop sameRow fuel [p] [] with
    | none => none
    | some tmp =>
        let pruned : Layer := ⟨l.width, l.height,
          l.spans.filter (fun s => ¬ s.isEmpty)⟩
        some ((tmp.filter (fun e => ¬ e.isEmpty)).foldl Layer.pushSpan pruned)

/-- `Layer::push_span_only_valid` (src/layer.rs): no-op when the candidate
is empty or conflicts with any stored span; otherwise prune empty leftovers
and push the candidate unchanged. -/
def Layer.pushSpanOnlyValid (l : Layer) (p : PSpan) : Layer :=
  if p.isEmpty || l.spans.any (fun s => s.isConflict p) then l
  else
    Layer.pushSpan ⟨l.width, l.height, l.spans.filter (fun s => ¬ s.isEmpty)⟩ p

/-- `Annot<Layer>` (src/annot.rs): a layer bound to a base coordinate. -/
structure PLayer where
  x : Nat
  y : Nat
  layer : Layer
deriving DecidableEq, Repr

/-- `Layer::overlap(self, self_root, upper)` (src/layer.rs): copy `self`'s
spans unchanged into a fresh layer, `push_span_write` each of `upper`'s
spans translated by `upper`'s base, and anchor the result at the
component-wise minimum of `self_root` and `upper`'s base. -/
def Layer.overlap (l : Layer) (root : Nat × Nat) (upper : PLayer) : PLayer :=
  let start := l.spans.foldl Layer.pushSpan Layer.empty
  let merged := upper.layer.spans.foldl
    (fun acc s => acc.pushSpanWrite ⟨upper.x + s.x, upper.y + s.y, s.span⟩)
    start
  ⟨min root.1 upper.x, min root.2 upper.y, merged⟩

/-! ## Canvas (src/canvas.rs) -/

/-- Lookup in the z-index → layer mapping (`BTreeMap::get`), modelled on a
key-sorted association list. -/
def lookupAssoc (z : Nat) : List (Nat × PLayer) → Option PLayer
  | [] => none
  | (k, v) :: rest => if z = k then some v else lookupAssoc z rest

/-- Insert-or-replace in the z-index → layer mapping (`BTreeMap::insert`),
keeping the list sorted by key. -/
def insertAssoc (z : Nat) (pl : PLayer) : List (Nat × PLayer) → List (Nat × PLayer)
  | [] => [(z, pl)]
  | (k, v) :: rest =>
      if z < k then (z, pl) :: (k, v) :: rest
      else if z = k then (z, pl) :: rest
      else (k, v) :: insertAssoc z pl rest

/-- `Canvas` (src/canvas.rs): front counter, cached size, and the ordered
z-index → placed-layer mapping. -/
structure Canvas where
  front : Nat
  width : Nat
  height : Nat
  layers : List (Nat × PLayer)
deriving DecidableEq, Repr

/-- `Canvas::default()`. -/
def Canvas.empty : Canvas := ⟨0, 0, 0, []⟩

/-- `Canvas::apply_layer` (src/canvas.rs, private): grow the cached size to
the layer's outer apex, store the layer at `z_index`, advance `front` to
`front.max(z_index + 1)`. -/
def Canvas.applyLayer (c : Canvas) (z : Nat) (pl : PLayer) : Canvas :=
  ⟨max c.front (z + 1),
    max c.width (pl.x + pl.layer.width),
    max c.height (pl.y + pl.layer.height),
    insertAssoc z pl c.layers⟩

/-- `Canvas::insert(z_index, layer)` (src/canvas.rs): unconditional
`apply_layer`. -/
def Canvas.insert (c : Canvas) (z : Nat) (pl : PLayer) : Canvas :=
  c.applyLayer z pl

/-- `Canvas::merge(z_index, new_layer)` (src/canvas.rs):

```rust
let Some(merged_layer) = self.layers.get(&z_index) else {
    return;
};
let merged_layer = merged_layer.inner().overlap(merged_layer.base_pos(), new_layer);
self.apply_layer(z_index, merged_layer);
```

When `z_index` is unoccupied the method returns without touching the
canvas. -/
def Canvas.merge (c : Canvas) (z : Nat) (newLayer : PLayer) : Canvas :=
  match lookupAssoc z c.layers with
  | none => c
  | some occ => c.applyLayer z (occ.layer.overlap (occ.x, occ.y) newLayer)

/-! ## View, Window and the frame buffer (src/view.rs, src/window.rs) -/

/-- `View` (src/view.rs): a dense row-major grid of optional cells. -/
structure View where
  width : Nat
  height : Nat
  cells : List (Option Cell)
deriving DecidableEq, Repr

/-- `View::get_line(rows)` (src/view.rs): the empty slice when `rows` is at
or past the declared height, otherwise the slice
`cells[width*rows .. width*(rows+1)]` — which panics (modelled `none`) when
the cell list is shorter than the declared grid. -/
def View.getLine (v : View) (rows : Nat) : Option (List (Option Cell)) :=
  if v.height ≤ rows then some []
  else if v.width * (rows + 1) ≤ v.cells.length then
    some ((v.cells.drop (v.width * rows)).take (v.width * (rows + 1) - v.width * rows))
  else none

/-- `Annot<View>` (src/annot.rs): a view bound to a base coordinate. -/
structure PView where
  x : Nat
  y : Nat
  view : View
deriving DecidableEq, Repr

/-- One row copy of `create_virtual_terminal` (src/window.rs):

```rust
let line = &view.get_line(rel_y);
let src = &line[view_offset_x..(view_offset_x + drawable_width)];
let dst_begin = (window_width * (view_offset_y + rel_y)) as usize + view_offset_x;
let dst = &mut holder[dst_begin..dst_begin + drawable_width];
dst.copy_from_slice(src);
```

Both slice expressions panic (modelled `none`) when out of range. -/
def copyRow (ww : Nat) (v : View) (vx vy dw relY : Nat)
    (holder : List (Option Cell)) : Option (List (Option Cell)) :=
  match v.getLine relY with
  | none => none
  | some line =>
      if vx + dw ≤ line.length then
        let src := (line.drop vx).take dw
        let dstBegin := ww * (vy + relY) + vx
        if dstBegin + dw ≤ holder.length then
          some (holder.take dstBegin ++ src ++ holder.drop (dstBegin + dw))
        else none
      else none

/-- The `for rel_y in 0..drawable_height` loop of `create_virtual_terminal`,
applied to an explicit list of row offsets. -/
def copyRowsGo (ww : Nat) (v : View) (vx vy dw : Nat) :
    List Nat → List (Option Cell) → Option (List (Option Cell))
  | [], holder => some holder
  | r :: rs, holder =>
      match copyRow ww v vx vy dw r holder with
      | none => none
      | some h2 => copyRowsGo ww v vx vy dw rs h2

/-- One queued view's contribution in `create_virtual_terminal`
(src/window.rs):

```rust
let drawable_width = window_width.min(view.width().saturating_sub(view_offset_x)) as usize;
let drawable_height = window_height - view_offset_y;
if drawable_width == 0 || drawable_height == 0 { continue; }
for rel_y in 0..drawable_height { .. }
```

The plain `u16` subtraction `window_height - view_offset_y` underflows
(panics in a debug build) when the view sits below the window; modelled
`none`. -/
def applyView (ww wh : Nat) (holder : List (Option Cell)) (pv : PView) :
    Option (List (Option Cell)) :=
  if wh < pv.y then none
  else
    let dw := min ww (pv.view.width - pv.x)
    let dh := wh - pv.y
    if dw = 0 ∨ dh = 0 then some holder
    else copyRowsGo ww pv.view pv.x pv.y dw (List.range dh) holder

/-- The `while let Some(view) = window.views.pop_front()` loop of
`create_virtual_terminal` (src/window.rs): the queued views are processed
strictly in FIFO order, each one overwriting the holder. -/
def flattenViews (ww wh : Nat) : List PView → List (Option Cell) →
    Option (List (Option Cell))
  | [], holder => some holder
  | v :: rest, holder =>
      match applyView ww wh holder v with
      | none => none
      | some h2 => flattenViews ww wh rest h2

/-- `create_virtual_terminal(window)` (src/window.rs): flatten the queued
views into a fresh `window_width * window_height` holder of empty cells. -/
def createVirtualTerminal (ww wh : Nat) (views : List PView) :
    Option (List (Option Cell)) :=
  flattenViews ww wh views (List.replicate (ww * wh) none)

/-! ## Paint-command extraction (src/window.rs, `convert_to_spans`) -/

/-- `DrawableSpan` (src/draw.rs): an absolute position plus an ordered run
of cells. -/
structure DrawableSpan where
  x : Nat
  y : Nat
  cells : List Cell
deriving DecidableEq, Repr

/-- The scan loop of `convert_to_spans` (src/window.rs).  `i` is the running
flat index, `buf` the accumulating run, `(sx, sy)` the position recorded
when the current run started, `res` the emitted commands.  A command is
flushed at a row boundary (`i` a multiple of the width, tested before the
cell is examined), at an empty cell, and at the end of the buffer. -/
def convGo (w rbx rby : Nat) :
    List (Option Cell) → Nat → List Cell → Nat → Nat → List DrawableSpan →
    List DrawableSpan
  | [], _, buf, sx, sy, res =>
      if buf.isEmpty then res else res ++ [⟨sx, sy, buf⟩]
  | c :: rest, i, buf, sx, sy, res =>
      let flush := i % w = 0 ∧ ¬ buf.isEmpty = true
      let res2 := if flush then res ++ [⟨sx, sy, buf⟩] else res
      let buf2 := if flush then [] else buf
      match c with
      | some cell =>
          let sx2 := if buf2.isEmpty then rbx + i % w else sx
          let sy2 := if buf2.isEmpty then rby + i / w else sy
          convGo w rbx rby rest (i + 1) (buf2 ++ [cell]) sx2 sy2 res2
      | none =>
          if buf2.isEmpty then convGo w rbx rby rest (i + 1) buf2 sx sy res2
          else convGo w rbx rby rest (i + 1) [] sx sy (res2 ++ [⟨sx, sy, buf2⟩])

/-- `convert_to_spans(vterm)` (src/window.rs): scan the frame buffer row by
row, emitting one paint command per maximal run of non-empty cells.  The
initial `start_x`/`start_y` are the vterm's base position. -/
def convertToSpans (w rbx rby : Nat) (cells : List (Option Cell)) :
    List DrawableSpan :=
  convGo w rbx rby cells 0 [] rbx rby []

/-! ## Derived predicates and concrete instances used by the theorems -/

/-- Pairwise conflict-freedom of a list of placed spans: the Layer invariant
of spec §3 ("no two placed runs in the Layer spatially conflict"). -/
def conflictFree : List PSpan → Bool
  | [] => true
  | p :: rest => rest.all (fun q => ¬ p.isConflict q) && conflictFree rest

/-- Characterization of an extracted paint command: `cmd` is the maximal
non-empty run of the frame buffer `cells` (of row width `w`, base position
`(rbx, rby)`) starting at flat index `s`.  The conjuncts say: the command's
position is the coordinate of `s`; its cell list is non-empty, stays within
one row, and matches the buffer's cells (all non-empty); the cell to its
left is a row boundary or empty; the cell to its right is a row boundary,
the end of the buffer, or empty. -/
def CmdAt (w rbx rby : Nat) (cells : List (Option Cell)) (s : Nat)
    (cmd : DrawableSpan) : Prop :=
  cmd.x = rbx + s % w ∧
  cmd.y = rby + s / w ∧
  cmd.cells ≠ [] ∧
  s % w + cmd.cells.length ≤ w ∧
  (cells.drop s).take cmd.cells.length = cmd.cells.map some ∧
  (s % w = 0 ∨ (1 ≤ s ∧ cells[s - 1]? = some none)) ∧
  (s % w + cmd.cells.length = w ∨ s + cmd.cells.length = cells.length ∨
    cells[s + cmd.cells.length]? = some none)

/-- Scan-order relation between two extracted commands: every admissible
start index of the first ends at or before every admissible start index of
the second. -/
def CmdBefore (w rbx rby : Nat) (cells : List (Option Cell))
    (c1 c2 : DrawableSpan) : Prop :=
  ∀ s1 s2, CmdAt w rbx rby cells s1 c1 → CmdAt w rbx rby cells s2 c2 →
    s1 + c1.cells.length ≤ s2

/-- Buffer-state invariant of the `convert_to_spans` scan: when the run
buffer is non-empty it holds exactly the non-empty cells of
`cells[i - buf.length .. i]`, all in one row, started at the recorded
position and flanked on the left by a row boundary or an empty cell; when it
is empty, the scan sits at a row boundary or just after an empty cell. -/
def BufInv (w rbx rby : Nat) (cells : List (Option Cell)) (i : Nat)
    (buf : List Cell) (sx sy : Nat) : Prop :=
  match buf with
  | [] => i % w = 0 ∨ (1 ≤ i ∧ cells[i - 1]? = some none)
  | _ :: _ =>
      buf.length ≤ i ∧
      sx = rbx + (i - buf.length) % w ∧
      sy = rby + (i - buf.length) / w ∧
      (i - buf.length) % w + buf.length ≤ w ∧
      (cells.drop (i - buf.length)).take buf.length = buf.map some ∧
      ((i - buf.length) % w = 0 ∨
        (1 ≤ i - buf.length ∧ cells[i - buf.length - 1]? = some none))

/-- The single-cell run `"X"` at `(0, 0)`. -/
def runX : PSpan := ⟨0, 0, Span.ofString "X".toList⟩

/-- The single-cell run `"Y"` at `(2, 0)`. -/
def runY : PSpan := ⟨2, 0, Span.ofString "Y".toList⟩

/-- The run `"ZZZ"` at `(0, 0)`: overlaps both `runX` and `runY`. -/
def runZ : PSpan := ⟨0, 0, Span.ofString "ZZZ".toList⟩

/-- A layer holding the non-conflicting runs `runX` and `runY` (both
inserted by `push_span_only_valid`, which accepts them). -/
def layerXY : Layer :=
  (Layer.empty.pushSpanOnlyValid runX).pushSpanOnlyValid runY

/-- The empty run at `(0, 0)`. -/
def emptyRun : PSpan := ⟨0, 0, Span.ofCells []⟩

/-- The 3×3 all-`'.'` view of spec §8 Scenario D. -/
def viewDots : View := ⟨3, 3, List.replicate 9 (some (Cell.new '.'))⟩

/-- The 3×3 all-`'O'` view of spec §8 Scenario D. -/
def viewOs : View := ⟨3, 3, List.replicate 9 (some (Cell.new 'O'))⟩

/-- The expected Scenario D frame buffer: row 0 `...`, row 1 `.OO`,
row 2 `.OO`. -/
def frameD : List (Option Cell) :=
  [some (Cell.new '.'), some (Cell.new '.'), some (Cell.new '.'),
    some (Cell.new '.'), some (Cell.new 'O'), some (Cell.new 'O'),
    some (Cell.new '.'), some (Cell.new 'O'), some (Cell.new 'O')]

/-- A 3×1 view (shorter than the window rows imply): flattening it in a
3×3 window reads past its only row. -/
def shortView : View :=
  ⟨3, 1, [some (Cell.new 'A'), some (Cell.new 'B'), some (Cell.new 'C')]⟩

/-- A one-run placed layer used for the Canvas theorems. -/
def pLayerA : PLayer := ⟨0, 0, Layer.empty.pushSpanWrite runX⟩

/-- A second one-run placed layer used for the Canvas theorems. -/
def pLayerB : PLayer := ⟨0, 0, Layer.empty.pushSpanWrite runY⟩

/-- A 3×3 view of entirely empty cells, used to exhibit the unconditional
copy of the window flattening (an empty source cell overwrites non-empty
destination content). -/
def viewBlank : View := ⟨3, 3, List.replicate 9 none⟩

/-! ## Embedding validation against the repository's own unit tests

These theorems replay `src/tests/src/{layer,window,draw_cmd,canvas}.rs` and
the doctests of the source on the embedding; they carry no claim of their
own but pin the embedding to the source's observed behaviour. -/

/-- Replays test `layer::push_write_begin` (spec §8 Scenario A). -/
theorem sanity_push_write_begin :
    ((Layer.empty.pushSpanWrite ⟨0, 0, Span.ofString "Hi, World!".toList⟩).pushSpanWrite
      ⟨0, 0, Span.ofString "Hello".toList⟩).spans =
    [⟨5, 0, Span.ofString "orld!".toList⟩, ⟨0, 0, Span.ofString "Hello".toList⟩] := by
  decide

/-- Replays test `layer::push_write_include`. -/
theorem sanity_push_write_include :
    ((Layer.empty.pushSpanWrite ⟨0, 0, Span.ofString "Hello, World!".toList⟩).pushSpanWrite
      ⟨5, 0, Span.ofString "!".toList⟩).spans =
    [⟨0, 0, Span.ofString "Hello".toList⟩, ⟨6, 0, Span.ofString " World!".toList⟩,
      ⟨5, 0, Span.ofString "!".toList⟩] := by
  decide

/-- Replays test `layer::push_fixed_include`. -/
theorem sanity_push_fixed_include :
    (Layer.pushSpanFixed 16
      (Layer.empty.pushSpanWrite ⟨2, 0, Span.ofString "llo, W".toList⟩)
      ⟨0, 0, Span.ofString "Hello, World!".toList⟩).map Layer.spans =
    some [⟨2, 0, Span.ofString "llo, W".toList⟩, ⟨0, 0, Span.ofString "He".toList⟩,
      ⟨8, 0, Span.ofString "orld!".toList⟩] := by
  decide

/-- Replays test `layer::overlap_layer` (spec §8 Scenario B). -/
theorem sanity_overlap_layer :
    ((Layer.empty.pushSpanWrite ⟨0, 0, Span.ofString "Hello, World!".toList⟩).overlap (0, 0)
      ⟨0, 0, Layer.empty.pushSpanWrite ⟨2, 0, Span.ofString "________".toList⟩⟩).layer.spans =
    [⟨0, 0, Span.ofString "He".toList⟩, ⟨10, 0, Span.ofString "ld!".toList⟩,
      ⟨2, 0, Span.ofString "________".toList⟩] := by
  decide

/-- Replays test `window::create_vterm` (spec §8 Scenario D). -/
theorem sanity_create_vterm :
    createVirtualTerminal 3 3 [⟨0, 0, viewDots⟩, ⟨1, 1, viewOs⟩] = some frameD := by
  decide

/-- Replays test `draw_cmd::convert_to_cmds` (spec §8 Scenario E). -/
theorem sanity_convert_to_cmds :
    convertToSpans 3 0 0 frameD =
    [⟨0, 0, [Cell.new '.', Cell.new '.', Cell.new '.']⟩,
      ⟨0, 1, [Cell.new '.', Cell.new 'O', Cell.new 'O']⟩,
      ⟨0, 2, [Cell.new '.', Cell.new 'O', Cell.new 'O']⟩] := by
  decide

/-- Replays test `canvas::merge_layer`. -/
theorem sanity_merge_layer :
    ((Canvas.empty.insert 0
        ⟨0, 0, Layer.empty.pushSpanWrite ⟨3, 0, Span.ofString "Hi, World!".toList⟩⟩).merge 0
      ⟨0, 0, Layer.empty.pushSpanWrite ⟨0, 0, Span.ofString "Hello,".toList⟩⟩).layers.map
        (fun kv => kv.2.layer.spans) =
    [[⟨6, 0, Span.ofString " World!".toList⟩, ⟨0, 0, Span.ofString "Hello,".toList⟩]] := by
  decide

/-! ## C1 — the Layer no-conflict invariant -/

/-- C1.  Claim: "after any insertion returns, no two placed runs stored in
the Layer conflict under the is_conflict geometry test."  The code violates
this: `push_span_fixed` resolves the candidate against *each* conflicting
same-row run independently and re-enqueues every fragment, so a candidate
conflicting with two stored runs produces duplicated fragments.  Pushing
`"ZZZ"@(0,0)` into the layer holding `"X"@(0,0)` and `"Y"@(2,0)` terminates
(the work-queue loop finishes within the given fuel, hence `some`) and
leaves the layer holding the fragment `"Z"@(1,0)` twice — two placed runs
that conflict. -/
theorem c1_no_conflict_invariant_violated :
    (Layer.pushSpanFixed 32 layerXY runZ).map (fun l => conflictFree l.spans) =
      some false ∧
    (Layer.pushSpanFixed 32 layerXY runZ).map Layer.spans =
      some [runX, runY, ⟨1, 0, Span.ofString "Z".toList⟩,
        ⟨1, 0, Span.ofString "Z".toList⟩] := by
  constructor
  · decide
  · decide

/-! ## C2 — the `push_fixed` postcondition -/

/-- C2.  Claim: after `push_span_fixed`, the surviving fragments of the new
run cover exactly the columns of its row not already covered, "each
uncovered column covered once".  In the layer `layerXY` the only uncovered
column of row 0 under the new run `"ZZZ"@(0,0)` is column 1, yet after the
push two stored runs cover column 1 (the duplicated fragment of C1): the
column is covered twice, not once.  (Existing runs `runX`, `runY` are
unchanged; they cover columns 0 and 2 and do not contain column 1.) -/
theorem c2_push_fixed_postcondition_violated :
    (Layer.pushSpanFixed 32 layerXY runZ).map
      (fun l => l.spans.countP (fun s => s.containsPos 1 0)) = some 2 ∧
    runX.containsPos 1 0 = false ∧ runY.containsPos 1 0 = false := by
  refine ⟨by decide, by decide, by decide⟩

/-! ## C3 — totality of the public operations -/

/-- C3.  Claim: every public operation is total; in particular
`truncate_front(n)` with `n` greater than the Run's length yields an empty
Run, and flattening a Window whose queued view is shorter than the window
bounds imply still returns a frame buffer.  Both named operations panic
instead: `truncate_front(2)` on a one-cell span calls
`VecDeque::drain(2..)`, which panics (modelled `none`), and flattening a
3×3 window holding the 3×1 `shortView` slices the empty line returned by
`get_line(1)` out of range (modelled `none`). -/
theorem c3_totality_violated :
    Span.truncateFront (Span.ofString "A".toList) 2 = none ∧
    flattenViews 3 3 [⟨0, 0, shortView⟩] (List.replicate 9 none) = none := by
  constructor
  · decide
  · decide

/-! ## C5 — `append` drains the source? -/

/-- The per-cell loop of `Span::append`: the target receives exactly the
source's cells, and the source is left holding one default cell per original
cell. -/
theorem appendGo_eq (src tcells : List Cell) :
    Span.appendGo tcells src = (tcells ++ src, src.map (fun _ => Cell.default)) := by
  induction src generalizing tcells with
  | nil => simp [Span.appendGo]
  | cons c rest ih => simp [Span.appendGo, ih]

/-- C5 counterexample.  Claim: "the source has been drained (s is left
empty, length 0 with no cells)".  After `append` of the one-cell source
`"B"` the source's tracked length is still 1 (and it still holds one —
defaulted — cell), so the claim is false at this input. -/
theorem c5_append_source_not_drained :
    ¬ ((Span.append (Span.ofString "A".toList) (Span.ofString "B".toList)).2.len = 0 ∧
      (Span.append (Span.ofString "A".toList) (Span.ofString "B".toList)).2.cells = []) := by
  decide

/-- C5 amended.  For every target `t` and source `s`: the target's cell
sequence after `append` is the old target followed by the old source and its
length field is the sum; the source is *not* drained — its length field is
untouched and every cell it holds is replaced by the default cell. -/
theorem c5_append_amended (t s : Span) :
    (Span.append t s).1.cells = t.cells ++ s.cells ∧
    (Span.append t s).1.len = t.len + s.len ∧
    (Span.append t s).2.len = s.len ∧
    (Span.append t s).2.cells = s.cells.map (fun _ => Cell.default) := by
  simp [Span.append, appendGo_eq]

/-! ## C6 — the `split_by` fragment count -/

/-- C6.  Claim (and the source's own doc comment): `split_by` on `k` sorted
offsets "returns exactly `k+1` optional fragments".  The code returns 5
fragments for the 3 offsets `[5, 10, 99]` of its own doctest input (the
out-of-range offset 99 pushes two elements, and the trailing push still
fires because `res.last().is_some()` only tests non-emptiness of the
vector), and 0 fragments for 0 offsets (the trailing push is skipped on an
empty vector). -/
theorem c6_split_by_count_wrong :
    (Span.splitBy (Span.ofString "One, Two, Three".toList) [5, 10, 99]).length = 5 ∧
    Span.splitBy (Span.ofString "AB".toList) [] = [] := by
  constructor
  · decide
  · decide

/-! ## C10 — `push_span_only_valid` -/

/-- A non-empty placed span conflicts with itself: its interval overlaps
itself and it sits on its own row. -/
theorem PSpan.isConflict_self {p : PSpan} (h : p.isEmpty = false) :
    p.isConflict p = true := by
  have hw : 0 < p.width := by
    simp only [PSpan.isEmpty, beq_eq_false_iff_ne, ne_eq] at h
    omega
  simp only [PSpan.isConflict, h, Bool.or_self, Bool.false_eq_true,
    if_false, PSpan.outerX, Bool.and_eq_true, decide_eq_true_eq]
  refine ⟨⟨⟨?_, ?_⟩, ?_⟩, ?_⟩ <;> omega

/-- C10 counterexample.  The claim's "unchanged iff the candidate conflicts
with some existing run" fails for an empty candidate: pushing the empty run
into the empty layer leaves the layer unchanged although the candidate
conflicts with no stored run (there are none). -/
theorem c10_claim_false_on_empty_candidate :
    ¬ ((Layer.empty.pushSpanOnlyValid emptyRun = Layer.empty) ↔
      Layer.empty.spans.any (fun t => t.isConflict emptyRun) = true) := by
  decide

/-- C10 amended.  For every layer and every *non-empty* candidate:
`push_span_only_valid` leaves the layer unchanged iff the candidate
conflicts with some stored run, and when there is no conflict the stored
spans become the old spans (pruned of empty leftovers) with the candidate
appended verbatim — same position, same cells. -/
theorem c10_push_only_valid_amended (l : Layer) (s : PSpan)
    (h : s.isEmpty = false) :
    (l.pushSpanOnlyValid s = l ↔
      l.spans.any (fun t => t.isConflict s) = true) ∧
    (l.spans.any (fun t => t.isConflict s) = false →
      (l.pushSpanOnlyValid s).spans =
        l.spans.filter (fun t => ¬ t.isEmpty) ++ [s]) := by
  cases hany : l.spans.any (fun t => t.isConflict s) with
  | true =>
      refine ⟨?_, ?_⟩
      · simp [Layer.pushSpanOnlyValid, h, hany]
      · intro hfalse; cases hfalse
  | false =>
      have hres : l.pushSpanOnlyValid s =
          Layer.pushSpan ⟨l.width, l.height, l.spans.filter (fun t => ¬ t.isEmpty)⟩ s := by
        simp [Layer.pushSpanOnlyValid, h, hany]
      refine ⟨⟨?_, ?_⟩, ?_⟩
      · intro heq
        exfalso
        have hspans : l.spans = l.spans.filter (fun t => ¬ t.isEmpty) ++ [s] := by
          conv_lhs => rw [← heq]
          rw [hres]
          rfl
        have hmem : s ∈ l.spans := by rw [hspans]; simp
        have : l.spans.any (fun t => t.isConflict s) = true :=
          List.any_eq_true.mpr ⟨s, hmem, PSpan.isConflict_self h⟩
        rw [hany] at this
        cases this
      · intro htrue; cases htrue
      · intro _
        rw [hres]
        rfl

/-- C10 witness: the amended theorem at the concrete non-conflicting input
`runX` pushed into the empty layer. -/
theorem c10_witness :
    ((Layer.empty.pushSpanOnlyValid runX = Layer.empty) ↔
      Layer.empty.spans.any (fun t => t.isConflict runX) = true) ∧
    (Layer.empty.spans.any (fun t => t.isConflict runX) = false →
      (Layer.empty.pushSpanOnlyValid runX).spans =
        Layer.empty.spans.filter (fun t => ¬ t.isEmpty) ++ [runX]) :=
  c10_push_only_valid_amended Layer.empty runX (by decide)

/-! ## C4 — `Canvas::merge` -/

/-- Looking a key up right after storing it finds the stored layer. -/
theorem lookupAssoc_insertAssoc_self (z : Nat) (pl : PLayer)
    (l : List (Nat × PLayer)) :
    lookupAssoc z (insertAssoc z pl l) = some pl := by
  induction l with
  | nil => simp [insertAssoc, lookupAssoc]
  | cons kv rest ih =>
      obtain ⟨k, v⟩ := kv
      by_cases h1 : z < k
      · simp [insertAssoc, h1, lookupAssoc]
      · by_cases h2 : z = k
        · simp [insertAssoc, h1, h2, lookupAssoc]
        · simp [insertAssoc, h1, h2, lookupAssoc, ih]

/-- Storing at one key leaves every other key's binding unchanged. -/
theorem lookupAssoc_insertAssoc_ne (z z2 : Nat) (pl : PLayer)
    (l : List (Nat × PLayer)) (h : z2 ≠ z) :
    lookupAssoc z2 (insertAssoc z pl l) = lookupAssoc z2 l := by
  induction l with
  | nil => simp [insertAssoc, lookupAssoc, h]
  | cons kv rest ih =>
      obtain ⟨k, v⟩ := kv
      by_cases h1 : z < k
      · simp [insertAssoc, h1, lookupAssoc, h]
      · by_cases h2 : z = k
        · subst h2
          simp [insertAssoc, h1, lookupAssoc, h]
        · simp only [insertAssoc, if_neg h1, if_neg h2, lookupAssoc]
          by_cases h3 : z2 = k
          · simp [h3]
          · simp [h3, ih]

/-- C4 counterexample.  Claim: when `z` is unoccupied, `merge(z, L)` behaves
exactly like `insert(z, L)`.  On the empty canvas, `merge(0, pLayerA)`
leaves the canvas empty (index 0 still unbound), while `insert(0, pLayerA)`
stores the layer — the two results differ. -/
theorem c4_merge_on_missing_not_insert :
    Canvas.merge Canvas.empty 0 pLayerA ≠ Canvas.insert Canvas.empty 0 pLayerA ∧
    lookupAssoc 0 (Canvas.merge Canvas.empty 0 pLayerA).layers = none := by
  decide

/-- C4 amended.  `merge(z, L)`: when `z` is occupied by `occ`, the occupant
is replaced by `occ.overlap(occ.base, L)` and every other index keeps its
binding; when `z` is unoccupied, `merge` is a no-op (the canvas is returned
unchanged — `insert_or_merge` is the operation that inserts in that
case). -/
theorem c4_merge_amended (c : Canvas) (z : Nat) (L : PLayer) :
    (lookupAssoc z c.layers = none → c.merge z L = c) ∧
    (∀ occ, lookupAssoc z c.layers = some occ →
      lookupAssoc z (c.merge z L).layers =
        some (occ.layer.overlap (occ.x, occ.y) L) ∧
      ∀ z2, z2 ≠ z →
        lookupAssoc z2 (c.merge z L).layers = lookupAssoc z2 c.layers) := by
  refine ⟨?_, ?_⟩
  · intro hnone
    simp [Canvas.merge, hnone]
  · intro occ hocc
    refine ⟨?_, ?_⟩
    · simp [Canvas.merge, hocc, Canvas.applyLayer, lookupAssoc_insertAssoc_self]
    · intro z2 hz2
      simp [Canvas.merge, hocc, Canvas.applyLayer,
        lookupAssoc_insertAssoc_ne _ _ _ _ hz2]

/-- C4 witness: the amended theorem at a canvas occupied at index 0. -/
theorem c4_witness :
    lookupAssoc 0 ((Canvas.empty.insert 0 pLayerA).merge 0 pLayerB).layers =
      some (pLayerA.layer.overlap (pLayerA.x, pLayerA.y) pLayerB) ∧
    lookupAssoc 1 ((Canvas.empty.insert 0 pLayerA).merge 0 pLayerB).layers =
      lookupAssoc 1 (Canvas.empty.insert 0 pLayerA).layers := by
  have h := (c4_merge_amended (Canvas.empty.insert 0 pLayerA) 0 pLayerB).2
    pLayerA (by decide)
  exact ⟨h.1, h.2 1 (by decide)⟩

/-! ## C9 — split/append round-trip at offsets [5, 7] -/

/-- C9.  For every Run of length at least 8 (with its tracked length equal
to its stored cell count, the invariant every constructor of the source
maintains), splitting at `[5, 7]` and re-concatenating the surviving
fragments in order with `append` reproduces the original cell sequence and
length. -/
theorem c9_split_append_roundtrip (s : Span) (hinv : s.len = s.cells.length)
    (h8 : 8 ≤ s.len) :
    ((s.splitBy [5, 7]).reduceOption.foldl
      (fun acc f => (Span.append acc f).1) (Span.ofCells [])).cells = s.cells ∧
    ((s.splitBy [5, 7]).reduceOption.foldl
      (fun acc f => (Span.append acc f).1) (Span.ofCells [])).len = s.len := by
  have hlen : 8 ≤ s.cells.length := hinv ▸ h8
  have e1 : sliceGet s.cells 0 5 = some (s.cells.take 5) := by
    unfold sliceGet
    rw [if_pos ⟨by omega, by omega⟩]
    simp
  have e2 : sliceGet s.cells 5 7 = some ((s.cells.drop 5).take 2) := by
    unfold sliceGet
    rw [if_pos ⟨by omega, by omega⟩]
  have e3 : tailGet s.cells 7 = some (s.cells.drop 7) := by
    unfold tailGet
    rw [if_pos (by omega)]
  have hsplit : s.splitBy [5, 7] =
      [some (Span.ofCells (s.cells.take 5)),
        some (Span.ofCells ((s.cells.drop 5).take 2)),
        some (Span.ofCells (s.cells.drop 7))] := by
    simp [Span.splitBy, Span.splitByGo, Span.toVec, e1, e2, e3]
  rw [hsplit]
  simp only [List.reduceOption_cons_of_some, List.reduceOption_nil, List.foldl]
  have hcells : ∀ t f : Span, (Span.append t f).1.cells = t.cells ++ f.cells := by
    intro t f
    simp [Span.append, appendGo_eq]
  have hlens : ∀ t f : Span, (Span.append t f).1.len = t.len + f.len := by
    intro t f
    simp [Span.append]
  have hdd : (s.cells.drop 5).drop 2 = s.cells.drop 7 := by
    rw [List.drop_drop]
  constructor
  · simp only [hcells, Span.ofCells, List.nil_append]
    rw [List.append_assoc, ← hdd, List.take_append_drop, List.take_append_drop]
  · have l1 : (s.cells.take 5).length = 5 := by
      rw [List.length_take]; omega
    have l2 : ((s.cells.drop 5).take 2).length = 2 := by
      rw [List.length_take, List.length_drop]; omega
    have l3 : (s.cells.drop 7).length = s.cells.length - 7 := by
      rw [List.length_drop]
    simp only [hlens, Span.ofCells, List.length_nil, l1, l2, l3]
    omega

/-- C9 witness: the round-trip at the concrete 8-cell run `"ABCDEFGH"`. -/
theorem c9_witness :
    (((Span.ofString "ABCDEFGH".toList).splitBy [5, 7]).reduceOption.foldl
      (fun acc f => (Span.append acc f).1) (Span.ofCells [])).cells =
      (Span.ofString "ABCDEFGH".toList).cells ∧
    (((Span.ofString "ABCDEFGH".toList).splitBy [5, 7]).reduceOption.foldl
      (fun acc f => (Span.append acc f).1) (Span.ofCells [])).len =
      (Span.ofString "ABCDEFGH".toList).len :=
  c9_split_append_roundtrip (Span.ofString "ABCDEFGH".toList) (by decide) (by decide)

/-! ## C7 — FIFO window flattening with unconditional copy -/

/-- Reading back a slice-assignment
`holder[n .. n + repl.length] := repl`: positions inside the written window
read from `repl`, positions outside read from the original list. -/
theorem writeSlice_getElem {α : Type} (h repl : List α) (n m idx : Nat)
    (hm : m = n + repl.length) (hn : m ≤ h.length) :
    (h.take n ++ repl ++ h.drop m)[idx]? =
      if idx < n then h[idx]?
      else if idx < m then repl[idx - n]?
      else h[idx]? := by
  subst hm
  have hlt : (h.take n).length = n := by
    rw [List.length_take]
    omega
  by_cases h1 : idx < n
  · rw [if_pos h1, List.append_assoc, List.getElem?_append_left (by omega),
      List.getElem?_take_of_lt h1]
  · rw [if_neg h1, List.append_assoc, List.getElem?_append_right (by omega), hlt]
    by_cases h2 : idx < n + repl.length
    · rw [if_pos h2, List.getElem?_append_left (by omega)]
    · rw [if_neg h2, List.getElem?_append_right (by omega), List.getElem?_drop]
      congr 1
      omega

/-- Length is preserved by the slice assignment. -/
theorem writeSlice_length {α : Type} (h repl : List α) (n m : Nat)
    (hm : m = n + repl.length) (hn : m ≤ h.length) :
    (h.take n ++ repl ++ h.drop m).length = h.length := by
  subst hm
  simp only [List.length_append, List.length_take, List.length_drop]
  omega

/-- Specification of one row copy of the window flattening: under the
bounds that hold for every row the loop visits, `copyRow` succeeds, keeps
the holder length, writes the view's cells
`view.cells[width*r + vx .. width*r + vx + dw]` at
`holder[ww*(vy+r) + vx ..]`, and leaves all other positions unchanged. -/
theorem copyRow_spec (ww : Nat) (v : View) (vx vy dw r : Nat)
    (h : List (Option Cell))
    (hcv : v.cells.length = v.width * v.height)
    (hrv : r < v.height)
    (hvw : vx + dw ≤ v.width)
    (hdw : 1 ≤ dw)
    (hfit : ww * (vy + r + 1) ≤ h.length)
    (hww : vx + dw ≤ ww) :
    ∃ h2, copyRow ww v vx vy dw r h = some h2 ∧ h2.length = h.length ∧
      (∀ k, k < dw →
        h2[ww * (vy + r) + vx + k]? = v.cells[v.width * r + vx + k]?) ∧
      (∀ idx, idx < ww * (vy + r) + vx ∨ ww * (vy + r) + vx + dw ≤ idx →
        h2[idx]? = h[idx]?) := by
  have hr1 : v.width * (r + 1) ≤ v.cells.length := by
    rw [hcv]
    exact Nat.mul_le_mul_left _ hrv
  have hline : v.getLine r =
      some ((v.cells.drop (v.width * r)).take (v.width * (r + 1) - v.width * r)) := by
    unfold View.getLine
    rw [if_neg (by omega), if_pos hr1]
  have hmul : v.width * (r + 1) = v.width * r + v.width := by ring
  have hlinelen :
      ((v.cells.drop (v.width * r)).take (v.width * (r + 1) - v.width * r)).length
        = v.width := by
    rw [List.length_take, List.length_drop]
    omega
  have hsrc : vx + dw ≤
      ((v.cells.drop (v.width * r)).take (v.width * (r + 1) - v.width * r)).length := by
    omega
  have hdst : ww * (vy + r) + vx + dw ≤ h.length := by
    have : ww * (vy + r + 1) = ww * (vy + r) + ww := by ring
    omega
  have hres : copyRow ww v vx vy dw r h =
      some (h.take (ww * (vy + r) + vx) ++
        ((((v.cells.drop (v.width * r)).take (v.width * (r + 1) - v.width * r)).drop
          vx).take dw) ++
        h.drop (ww * (vy + r) + vx + dw)) := by
    simp only [copyRow, hline]
    rw [if_pos hsrc, if_pos hdst]
  set line := (v.cells.drop (v.width * r)).take (v.width * (r + 1) - v.width * r)
    with hline_def
  have hsrclen : ((line.drop vx).take dw).length = dw := by
    rw [List.length_take, List.length_drop]
    omega
  have hm : ww * (vy + r) + vx + dw =
      ww * (vy + r) + vx + ((line.drop vx).take dw).length := by
    rw [hsrclen]
  refine ⟨_, hres, ?_, ?_, ?_⟩
  · rw [writeSlice_length _ _ _ _ hm hdst]
  · intro k hk
    rw [writeSlice_getElem _ _ _ _ _ hm hdst]
    rw [if_neg (by omega), if_pos (by omega)]
    have hk2 : ww * (vy + r) + vx + k - (ww * (vy + r) + vx) = k := by omega
    rw [hk2, List.getElem?_take_of_lt hk, List.getElem?_drop, hline_def,
      List.getElem?_take_of_lt (by omega), List.getElem?_drop]
    congr 1
    omega
  · intro idx hidx
    rw [writeSlice_getElem _ _ _ _ _ hm hdst]
    rcases hidx with hlt | hge
    · rw [if_pos hlt]
    · rw [if_neg (by omega), if_neg (by omega)]

/-- Specification of the row loop of the window flattening: every position
inside the copied region of some visited row reads the view's cell for that
absolute position, every other position is untouched. -/
theorem copyRowsGo_spec (ww : Nat) (v : View) (vx vy dw : Nat)
    (hcv : v.cells.length = v.width * v.height)
    (hvw : vx + dw ≤ v.width)
    (hdw : 1 ≤ dw)
    (hww : vx + dw ≤ ww) :
    ∀ (rows : List Nat) (h : List (Option Cell)),
      (∀ r ∈ rows, r < v.height ∧ ww * (vy + r + 1) ≤ h.length) →
      ∃ h2, copyRowsGo ww v vx vy dw rows h = some h2 ∧ h2.length = h.length ∧
        ∀ idx : Nat,
          ((∃ r ∈ rows, ∃ k, k < dw ∧ idx = ww * (vy + r) + vx + k) →
            h2[idx]? = v.cells[v.width * (idx / ww - vy) + idx % ww]?) ∧
          ((¬ ∃ r ∈ rows, ∃ k, k < dw ∧ idx = ww * (vy + r) + vx + k) →
            h2[idx]? = h[idx]?) := by
  have hwpos : 0 < ww := by omega
  have hdm : ∀ r k : Nat, k < dw →
      (ww * (vy + r) + vx + k) / ww = vy + r ∧
      (ww * (vy + r) + vx + k) % ww = vx + k := by
    intro r k hk
    constructor
    · rw [Nat.add_assoc, Nat.mul_add_div hwpos, Nat.div_eq_of_lt (by omega),
        Nat.add_zero]
    · rw [Nat.add_assoc, Nat.mul_add_mod, Nat.mod_eq_of_lt (by omega)]
  intro rows
  induction rows with
  | nil =>
      intro h _
      refine ⟨h, rfl, rfl, fun idx => ⟨?_, fun _ => rfl⟩⟩
      rintro ⟨r, hr, -⟩
      simp at hr
  | cons r rs ih =>
      intro h hr
      obtain ⟨hrv, hfit⟩ := hr r (by simp)
      obtain ⟨h1, e1, len1, val1, unch1⟩ :=
        copyRow_spec ww v vx vy dw r h hcv hrv hvw hdw hfit hww
      have hr2 : ∀ r2 ∈ rs, r2 < v.height ∧ ww * (vy + r2 + 1) ≤ h1.length := by
        intro r2 hm
        obtain ⟨a, b⟩ := hr r2 (by simp [hm])
        exact ⟨a, by rw [len1]; exact b⟩
      obtain ⟨h2, e2, len2, spec2⟩ := ih h1 hr2
      refine ⟨h2, by simp only [copyRowsGo, e1, e2], by rw [len2, len1], ?_⟩
      intro idx
      constructor
      · rintro ⟨r', hr', k, hk, hidx⟩
        rcases List.mem_cons.mp hr' with heq | hmem
        · subst heq
          by_cases hin : ∃ r2 ∈ rs, ∃ k2, k2 < dw ∧ idx = ww * (vy + r2) + vx + k2
          · exact (spec2 idx).1 hin
          · rw [(spec2 idx).2 hin, hidx, val1 k hk]
            obtain ⟨hdiv, hmod⟩ := hdm r' k hk
            rw [hdiv, hmod]
            have hsub : vy + r' - vy = r' := by omega
            rw [hsub, Nat.add_assoc]
        · exact (spec2 idx).1 ⟨r', hmem, k, hk, hidx⟩
      · intro hnot
        have hnotrs : ¬ ∃ r2 ∈ rs, ∃ k2, k2 < dw ∧ idx = ww * (vy + r2) + vx + k2 := by
          rintro ⟨r2, hm, k2, hk2, he⟩
          exact hnot ⟨r2, by simp [hm], k2, hk2, he⟩
        rw [(spec2 idx).2 hnotrs]
        apply unch1
        by_contra hcon
        push_neg at hcon
        exact hnot ⟨r, by simp, idx - (ww * (vy + r) + vx), by omega, by omega⟩

/-- The unconditional-copy property of one queued view: for a view whose
drawable region is well-formed (the holder is a full `ww*wh` grid, the
view's cell list matches its declared size, the view is tall enough for the
unclamped drawable height, and the drawable window fits the row), the copy
succeeds and every cell of the drawable region afterwards equals the view's
cell at that absolute position — including `none` source cells, which
overwrite non-empty destination cells. -/
theorem applyView_overwrite (ww wh : Nat) (h : List (Option Cell)) (pv : PView)
    (hh : h.length = ww * wh)
    (hcv : pv.view.cells.length = pv.view.width * pv.view.height)
    (hdh : wh - pv.y ≤ pv.view.height)
    (hww : pv.x + min ww (pv.view.width - pv.x) ≤ ww)
    (row col : Nat)
    (hr1 : pv.y ≤ row) (hr2 : row < wh)
    (hc1 : pv.x ≤ col) (hc2 : col < pv.x + min ww (pv.view.width - pv.x)) :
    ∃ h2, applyView ww wh h pv = some h2 ∧
      h2[ww * row + col]? =
        pv.view.cells[pv.view.width * (row - pv.y) + col]? := by
  have hdw : 1 ≤ min ww (pv.view.width - pv.x) := by omega
  have hvw : pv.x + min ww (pv.view.width - pv.x) ≤ pv.view.width := by
    have h1 : min ww (pv.view.width - pv.x) ≤ pv.view.width - pv.x :=
      Nat.min_le_right _ _
    omega
  obtain ⟨h2, e2, -, spec⟩ :=
    copyRowsGo_spec ww pv.view pv.x pv.y (min ww (pv.view.width - pv.x))
      hcv hvw hdw hww (List.range (wh - pv.y)) h
      (by
        intro r hm
        rw [List.mem_range] at hm
        constructor
        · omega
        · rw [hh]
          exact Nat.mul_le_mul_left _ (by omega))
  have happ : applyView ww wh h pv = some h2 := by
    unfold applyView
    rw [if_neg (by omega), if_neg (by push_neg; omega)]
    exact e2
  refine ⟨h2, happ, ?_⟩
  have hreg : ∃ r ∈ List.range (wh - pv.y),
      ∃ k, k < min ww (pv.view.width - pv.x) ∧
        ww * row + col = ww * (pv.y + r) + pv.x + k := by
    refine ⟨row - pv.y, List.mem_range.mpr (by omega), col - pv.x, by omega, ?_⟩
    have : pv.y + (row - pv.y) = row := by omega
    rw [this]
    omega
  rw [(spec (ww * row + col)).1 hreg]
  have hwpos : 0 < ww := by omega
  have hdiv : (ww * row + col) / ww = row := by
    rw [Nat.mul_add_div hwpos, Nat.div_eq_of_lt (by omega), Nat.add_zero]
  have hmod : (ww * row + col) % ww = col := by
    rw [Nat.mul_add_mod, Nat.mod_eq_of_lt (by omega)]
  rw [hdiv, hmod]

/-- The FIFO processing order of the window flattening: appending a view at
the back of the queue composes its copy step after all earlier views — so
the views inserted first are composited first and later views win. -/
theorem flattenViews_append (ww wh : Nat) (vs : List PView) (v : PView)
    (h : List (Option Cell)) :
    flattenViews ww wh (vs ++ [v]) h =
      (flattenViews ww wh vs h).bind (fun h2 => applyView ww wh h2 v) := by
  induction vs generalizing h with
  | nil =>
      cases happ : applyView ww wh h v <;>
        simp [flattenViews, happ]
  | cons u rest ih =>
      cases happ : applyView ww wh h u <;>
        simp [flattenViews, happ, ih]

/-- C7.  The window flattening processes the queued views strictly in FIFO
order (first conjunct: the view at the back of the queue is composited
last, over the result of all earlier views), each view's copy is
unconditional on its drawable region — the stored value afterwards is the
later view's cell, even when that cell is empty and the destination was not
(second conjunct) — and for the two 3×3 views of Scenario D the resulting
3×3 frame is row 0 `...`, row 1 `.OO`, row 2 `.OO` (third conjunct). -/
theorem c7_fifo_unconditional_overwrite :
    (∀ (ww wh : Nat) (vs : List PView) (v : PView) (h : List (Option Cell)),
      flattenViews ww wh (vs ++ [v]) h =
        (flattenViews ww wh vs h).bind (fun h2 => applyView ww wh h2 v)) ∧
    (∀ (ww wh : Nat) (h : List (Option Cell)) (pv : PView) (row col : Nat),
      h.length = ww * wh →
      pv.view.cells.length = pv.view.width * pv.view.height →
      wh - pv.y ≤ pv.view.height →
      pv.x + min ww (pv.view.width - pv.x) ≤ ww →
      pv.y ≤ row → row < wh → pv.x ≤ col →
      col < pv.x + min ww (pv.view.width - pv.x) →
      ∃ h2, applyView ww wh h pv = some h2 ∧
        h2[ww * row + col]? =
          pv.view.cells[pv.view.width * (row - pv.y) + col]?) ∧
    createVirtualTerminal 3 3 [⟨0, 0, viewDots⟩, ⟨1, 1, viewOs⟩] = some frameD := by
  refine ⟨flattenViews_append, ?_, by decide⟩
  intro ww wh h pv row col hh hcv hdh hww hr1 hr2 hc1 hc2
  exact applyView_overwrite ww wh h pv hh hcv hdh hww row col hr1 hr2 hc1 hc2

/-- C7 witness: the all-empty 3×3 view `viewBlank`, queued over a fully
drawn holder, punches its empty cells through — position `(1, 1)` of the
result holds `none` although the holder held `'.'` there. -/
theorem c7_witness :
    (∃ h2, applyView 3 3 (List.replicate 9 (some (Cell.new '.'))) ⟨1, 1, viewBlank⟩ =
        some h2 ∧
      h2[3 * 1 + 1]? = viewBlank.cells[viewBlank.width * (1 - 1) + 1]?) ∧
    flattenViews 3 3 ([⟨0, 0, viewDots⟩] ++ [⟨1, 1, viewOs⟩])
        (List.replicate 9 none) =
      (flattenViews 3 3 [⟨0, 0, viewDots⟩] (List.replicate 9 none)).bind
        (fun h2 => applyView 3 3 h2 ⟨1, 1, viewOs⟩) :=
  ⟨c7_fifo_unconditional_overwrite.2.1 3 3 (List.replicate 9 (some (Cell.new '.')))
      ⟨1, 1, viewBlank⟩ 1 1 (by decide) (by decide) (by decide) (by decide)
      (by decide) (by decide) (by decide) (by decide),
    c7_fifo_unconditional_overwrite.1 3 3 [⟨0, 0, viewDots⟩] ⟨1, 1, viewOs⟩
      (List.replicate 9 none)⟩

/-! ## C8 — extracted paint commands are non-empty, single-row, maximal -/

/-- A command determines its start index: the recorded position pins down
`s % w` and `s / w`, hence `s`. -/
theorem cmdAt_s_unique {w rbx rby : Nat} {cells : List (Option Cell)}
    {s1 s2 : Nat} {c : DrawableSpan}
    (h1 : CmdAt w rbx rby cells s1 c) (h2 : CmdAt w rbx rby cells s2 c) :
    s1 = s2 := by
  obtain ⟨hx1, hy1, -, -, -, -, -⟩ := h1
  obtain ⟨hx2, hy2, -, -, -, -, -⟩ := h2
  have hmod : s1 % w = s2 % w := by omega
  have hdiv : s1 / w = s2 / w := by omega
  calc s1 = w * (s1 / w) + s1 % w := (Nat.div_add_mod s1 w).symm
    _ = w * (s2 / w) + s2 % w := by rw [hdiv, hmod]
    _ = s2 := Nat.div_add_mod s2 w

/-- The buffer cells of a command all come from non-empty buffer cells. -/
theorem cmdAt_get {w rbx rby : Nat} {cells : List (Option Cell)} {s : Nat}
    {c : DrawableSpan} (h : CmdAt w rbx rby cells s c) :
    ∀ j, j < c.cells.length → cells[s + j]? = (c.cells[j]?).map some := by
  obtain ⟨-, -, -, -, hcont, -, -⟩ := h
  intro j hj
  have := congrArg (fun l => l[j]?) hcont
  simp only [List.getElem?_take_of_lt hj, List.getElem?_drop] at this
  rw [this, List.getElem?_map]

/-- A run that reaches a row boundary fills the row to its end. -/
theorem runEndsRow {w s len : Nat} (hle : s % w + len ≤ w) (hlen : 1 ≤ len)
    (hi : (s + len) % w = 0) : s % w + len = w := by
  have h1 : (s + len) % w = (s % w + len) % w := by
    conv_lhs => rw [← Nat.div_add_mod s w]
    rw [Nat.add_assoc, Nat.mul_add_mod]
  rw [h1] at hi
  rcases Nat.lt_or_ge (s % w + len) w with hlt | hge
  · rw [Nat.mod_eq_of_lt hlt] at hi
    omega
  · omega

/-- The matched content of a non-empty buffer lies inside the cell list. -/
theorem contentBound {cells : List (Option Cell)} {s : Nat} {buf : List Cell}
    (hne : buf ≠ []) (h : (cells.drop s).take buf.length = buf.map some) :
    s + buf.length ≤ cells.length := by
  have hlen := congrArg List.length h
  simp only [List.length_take, List.length_drop, List.length_map] at hlen
  have hpos : 1 ≤ buf.length := List.length_pos.mpr hne
  omega

/-- Flushing the non-empty scan buffer emits a command whose
characterization follows from the buffer invariant, given the right-flank
fact of the flush site. -/
theorem cmdAt_of_flush {w rbx rby : Nat} {cells : List (Option Cell)} {i : Nat}
    {buf : List Cell} {sx sy : Nat} (hne : buf ≠ [])
    (hinv : BufInv w rbx rby cells i buf sx sy)
    (hflank : (i - buf.length) % w + buf.length = w ∨
      i - buf.length + buf.length = cells.length ∨
      cells[i - buf.length + buf.length]? = some none) :
    CmdAt w rbx rby cells (i - buf.length) ⟨sx, sy, buf⟩ := by
  match buf, hne with
  | b :: bs, _ =>
      obtain ⟨h1, h2, h3, h4, h5, h6⟩ := hinv
      exact ⟨h2, h3, by simp, h4, h5, h6, hflank⟩

/-- Appending a freshly flushed command keeps the emitted list ordered,
provided every earlier command ends at or before the new one's start. -/
theorem pairwise_append_emit {w rbx rby : Nat} {cells : List (Option Cell)}
    (res : List DrawableSpan) (cmd : DrawableSpan) (s : Nat)
    (hcmd : CmdAt w rbx rby cells s cmd)
    (hres : ∀ c ∈ res, ∃ sc, CmdAt w rbx rby cells sc c ∧
      sc + c.cells.length ≤ s)
    (hpw : res.Pairwise (CmdBefore w rbx rby cells)) :
    (res ++ [cmd]).Pairwise (CmdBefore w rbx rby cells) := by
  rw [List.pairwise_append]
  refine ⟨hpw, List.pairwise_singleton _ _, ?_⟩
  intro a ha b hb
  rw [List.mem_singleton] at hb
  subst hb
  intro s1 s2 h1 h2
  obtain ⟨sa, hsa, hbound⟩ := hres a ha
  rw [cmdAt_s_unique h1 hsa, cmdAt_s_unique h2 hcmd]
  exact hbound

/-- Scan unfolding: end of buffer, empty run buffer — nothing to emit. -/
theorem convGo_nil_empty (w rbx rby : Nat) (i sx sy : Nat)
    (res : List DrawableSpan) :
    convGo w rbx rby [] i [] sx sy res = res := by
  simp [convGo]

/-- Scan unfolding: end of buffer, non-empty run buffer — final flush. -/
theorem convGo_nil_cons (w rbx rby : Nat) (i sx sy : Nat) (b : Cell)
    (bs : List Cell) (res : List DrawableSpan) :
    convGo w rbx rby [] i (b :: bs) sx sy res = res ++ [⟨sx, sy, b :: bs⟩] := by
  simp [convGo]

/-- Scan unfolding: non-empty cell, empty buffer — a new run starts here. -/
theorem convGo_step_startRun (w rbx rby : Nat) (cell : Cell)
    (rest : List (Option Cell)) (i sx sy : Nat) (res : List DrawableSpan) :
    convGo w rbx rby (some cell :: rest) i [] sx sy res =
      convGo w rbx rby rest (i + 1) [cell] (rbx + i % w) (rby + i / w) res := by
  simp [convGo]

/-- Scan unfolding: empty cell, empty buffer — skip. -/
theorem convGo_step_skip (w rbx rby : Nat) (rest : List (Option Cell))
    (i sx sy : Nat) (res : List DrawableSpan) :
    convGo w rbx rby (none :: rest) i [] sx sy res =
      convGo w rbx rby rest (i + 1) [] sx sy res := by
  simp [convGo]

/-- Scan unfolding: row boundary with a pending run — flush it, then a
non-empty cell starts a new run at this position. -/
theorem convGo_step_boundarySome (w rbx rby : Nat) (cell : Cell)
    (rest : List (Option Cell)) (i sx sy : Nat) (b : Cell) (bs : List Cell)
    (res : List DrawableSpan) (hiw : i % w = 0) :
    convGo w rbx rby (some cell :: rest) i (b :: bs) sx sy res =
      convGo w rbx rby rest (i + 1) [cell] (rbx + i % w) (rby + i / w)
        (res ++ [⟨sx, sy, b :: bs⟩]) := by
  simp [convGo, hiw]

/-- Scan unfolding: row boundary with a pending run — flush it, then an
empty cell leaves the fresh buffer empty. -/
theorem convGo_step_boundaryNone (w rbx rby : Nat)
    (rest : List (Option Cell)) (i sx sy : Nat) (b : Cell) (bs : List Cell)
    (res : List DrawableSpan) (hiw : i % w = 0) :
    convGo w rbx rby (none :: rest) i (b :: bs) sx sy res =
      convGo w rbx rby rest (i + 1) [] sx sy (res ++ [⟨sx, sy, b :: bs⟩]) := by
  simp [convGo, hiw]

/-- Scan unfolding: mid-row non-empty cell — the pending run grows. -/
theorem convGo_step_grow (w rbx rby : Nat) (cell : Cell)
    (rest : List (Option Cell)) (i sx sy : Nat) (b : Cell) (bs : List Cell)
    (res : List DrawableSpan) (hiw : ¬ i % w = 0) :
    convGo w rbx rby (some cell :: rest) i (b :: bs) sx sy res =
      convGo w rbx rby rest (i + 1) (b :: bs ++ [cell]) sx sy res := by
  simp [convGo, hiw]

/-- Scan unfolding: mid-row empty cell — flush the pending run. -/
theorem convGo_step_gapFlush (w rbx rby : Nat)
    (rest : List (Option Cell)) (i sx sy : Nat) (b : Cell) (bs : List Cell)
    (res : List DrawableSpan) (hiw : ¬ i % w = 0) :
    convGo w rbx rby (none :: rest) i (b :: bs) sx sy res =
      convGo w rbx rby rest (i + 1) [] sx sy (res ++ [⟨sx, sy, b :: bs⟩]) := by
  simp [convGo, hiw]

/-- Invariant induction over the `convert_to_spans` scan: from a valid scan
state, every command the scan will ever emit satisfies `CmdAt`, and the
emitted list is ordered by `CmdBefore`. -/
theorem convGo_spec (w rbx rby : Nat) (cells : List (Option Cell))
    (hw : 1 ≤ w) :
    ∀ (rest : List (Option Cell)) (i : Nat) (buf : List Cell) (sx sy : Nat)
      (res : List DrawableSpan),
      cells.drop i = rest →
      BufInv w rbx rby cells i buf sx sy →
      (∀ cmd ∈ res, ∃ s, CmdAt w rbx rby cells s cmd ∧
        s + cmd.cells.length ≤ i - buf.length) →
      res.Pairwise (CmdBefore w rbx rby cells) →
      (∀ cmd ∈ convGo w rbx rby rest i buf sx sy res,
        ∃ s, CmdAt w rbx rby cells s cmd) ∧
      (convGo w rbx rby rest i buf sx sy res).Pairwise
        (CmdBefore w rbx rby cells) := by
  intro rest
  induction rest with
  | nil =>
      intro i buf sx sy res hdrop hbuf hres hpw
      cases buf with
      | nil =>
          rw [convGo_nil_empty]
          exact ⟨fun cmd hm => (hres cmd hm).imp (fun s h => h.1), hpw⟩
      | cons b bs =>
          rw [convGo_nil_cons]
          obtain ⟨hlen, hsx, hsy, hrow, hcont, hleft⟩ := hbuf
          have hcells_le : cells.length ≤ i := by
            have hlen2 := congrArg List.length hdrop
            simp only [List.length_drop, List.length_nil] at hlen2
            omega
          have hbound := contentBound (List.cons_ne_nil b bs) hcont
          have hcmd : CmdAt w rbx rby cells (i - (b :: bs).length)
              ⟨sx, sy, b :: bs⟩ :=
            cmdAt_of_flush (List.cons_ne_nil b bs)
              ⟨hlen, hsx, hsy, hrow, hcont, hleft⟩
              (Or.inr (Or.inl (by omega)))
          refine ⟨?_, ?_⟩
          · intro cmd hm
            rcases List.mem_append.mp hm with hm | hm
            · exact (hres cmd hm).imp (fun s h => h.1)
            · rw [List.mem_singleton] at hm
              subst hm
              exact ⟨_, hcmd⟩
          · exact pairwise_append_emit res _ _ hcmd
              (fun c hc => (hres c hc).imp (fun s h => ⟨h.1, h.2⟩)) hpw
  | cons c rest ih =>
      intro i buf sx sy res hdrop hbuf hres hpw
      have hci : cells[i]? = some c := by
        have h0 := congrArg (fun l => l[0]?) hdrop
        simpa [List.getElem?_drop] using h0
      have hdrop2 : cells.drop (i + 1) = rest := by
        rw [← List.drop_drop, hdrop]
        rfl
      cases c with
      | some cell =>
          cases buf with
          | nil =>
              rw [convGo_step_startRun]
              apply ih (i + 1) [cell] _ _ res hdrop2
              · refine ⟨by simp, by simp, by simp, ?_, ?_, ?_⟩
                · have := Nat.mod_lt i (show 0 < w by omega)
                  simp only [List.length_cons, List.length_nil, Nat.zero_add,
                    Nat.add_sub_cancel]
                  omega
                · simp only [List.length_cons, List.length_nil, Nat.zero_add,
                    Nat.add_sub_cancel]
                  rw [hdrop]
                  rfl
                · simpa using hbuf
              · intro cmd hm
                obtain ⟨s, h1, h2⟩ := hres cmd hm
                exact ⟨s, h1, by simpa using h2⟩
              · exact hpw
          | cons b bs =>
              obtain ⟨hlen, hsx, hsy, hrow, hcont, hleft⟩ := hbuf
              have hlenpos : 1 ≤ (b :: bs).length := by simp
              by_cases hiw : i % w = 0
              · rw [convGo_step_boundarySome _ _ _ _ _ _ _ _ _ _ _ hiw]
                have hflank : (i - (b :: bs).length) % w + (b :: bs).length = w := by
                  apply runEndsRow hrow hlenpos
                  have heq : i - (b :: bs).length + (b :: bs).length = i := by omega
                  rw [heq]
                  exact hiw
                have hcmd : CmdAt w rbx rby cells (i - (b :: bs).length)
                    ⟨sx, sy, b :: bs⟩ :=
                  cmdAt_of_flush (List.cons_ne_nil b bs)
                    ⟨hlen, hsx, hsy, hrow, hcont, hleft⟩ (Or.inl hflank)
                refine ih (i + 1) [cell] _ _
                  (res ++ [DrawableSpan.mk sx sy (b :: bs)]) hdrop2 ?_ ?_ ?_
                · refine ⟨by simp, by simp, by simp, ?_, ?_, ?_⟩
                  · have := Nat.mod_lt i (show 0 < w by omega)
                    simp only [List.length_cons, List.length_nil, Nat.zero_add,
                      Nat.add_sub_cancel]
                    omega
                  · simp only [List.length_cons, List.length_nil, Nat.zero_add,
                      Nat.add_sub_cancel]
                    rw [hdrop]
                    rfl
                  · simp only [List.length_cons, List.length_nil, Nat.zero_add,
                      Nat.add_sub_cancel]
                    exact Or.inl hiw
                · intro cmd hm
                  rcases List.mem_append.mp hm with hm | hm
                  · obtain ⟨s, h1, h2⟩ := hres cmd hm
                    refine ⟨s, h1, ?_⟩
                    have hll : (b :: bs).length = bs.length + 1 :=
                      List.length_cons b bs
                    simp only [List.length_cons, List.length_nil, Nat.zero_add,
                      Nat.add_sub_cancel]
                    omega
                  · rw [List.mem_singleton] at hm
                    subst hm
                    refine ⟨i - (b :: bs).length, hcmd, ?_⟩
                    have hll : (b :: bs).length = bs.length + 1 :=
                      List.length_cons b bs
                    simp only [List.length_cons, List.length_nil, Nat.zero_add,
                      Nat.add_sub_cancel]
                    omega
                · exact pairwise_append_emit res _ _ hcmd
                    (fun cc hc => (hres cc hc).imp (fun s h => ⟨h.1, h.2⟩)) hpw
              · rw [convGo_step_grow _ _ _ _ _ _ _ _ _ _ _ hiw]
                apply ih (i + 1) (b :: bs ++ [cell]) _ _ res hdrop2
                · have hslen : (b :: bs ++ [cell]).length = (b :: bs).length + 1 := by
                    simp
                  have hs_eq : i + 1 - (b :: bs ++ [cell]).length =
                      i - (b :: bs).length := by
                    rw [hslen]
                    omega
                  have hrow2 : (i - (b :: bs).length) % w + (b :: bs).length < w := by
                    rcases Nat.lt_or_ge
                      ((i - (b :: bs).length) % w + (b :: bs).length) w with h | h
                    · exact h
                    · exfalso
                      have hfl : (i - (b :: bs).length) % w + (b :: bs).length = w := by
                        omega
                      have hmulsucc :
                          w * ((i - (b :: bs).length) / w + 1) =
                            w * ((i - (b :: bs).length) / w) + w := Nat.mul_succ _ _
                      have hdam := Nat.div_add_mod (i - (b :: bs).length) w
                      have hieq : i = w * ((i - (b :: bs).length) / w + 1) := by
                        omega
                      have : i % w = 0 := by
                        rw [hieq]
                        exact Nat.mul_mod_right _ _
                      exact hiw this
                  refine ⟨?_, ?_, ?_, ?_, ?_, ?_⟩
                  · rw [hslen]
                    omega
                  · rw [hs_eq]
                    exact hsx
                  · rw [hs_eq]
                    exact hsy
                  · rw [hs_eq, hslen]
                    omega
                  · rw [hs_eq, hslen]
                    rw [List.take_succ, hcont]
                    have hidx : (cells.drop (i - (b :: bs).length))[(b :: bs).length]? =
                        some (some cell) := by
                      rw [List.getElem?_drop]
                      have : i - (b :: bs).length + (b :: bs).length = i := by omega
                      rw [this]
                      exact hci
                    rw [hidx]
                    simp
                  · rw [hs_eq]
                    exact hleft
                · intro cmd hm
                  obtain ⟨s, h1, h2⟩ := hres cmd hm
                  refine ⟨s, h1, ?_⟩
                  have : (b :: bs ++ [cell]).length = (b :: bs).length + 1 := by simp
                  omega
                · exact hpw
      | none =>
          cases buf with
          | nil =>
              rw [convGo_step_skip]
              apply ih (i + 1) [] sx sy res hdrop2
              · exact Or.inr ⟨by omega, by simpa using hci⟩
              · intro cmd hm
                obtain ⟨s, h1, h2⟩ := hres cmd hm
                exact ⟨s, h1, by simp at h2 ⊢; omega⟩
              · exact hpw
          | cons b bs =>
              obtain ⟨hlen, hsx, hsy, hrow, hcont, hleft⟩ := hbuf
              have hcmd : CmdAt w rbx rby cells (i - (b :: bs).length)
                  ⟨sx, sy, b :: bs⟩ := by
                apply cmdAt_of_flush (List.cons_ne_nil b bs)
                  ⟨hlen, hsx, hsy, hrow, hcont, hleft⟩
                refine Or.inr (Or.inr ?_)
                have : i - (b :: bs).length + (b :: bs).length = i := by omega
                rw [this]
                exact hci
              by_cases hiw : i % w = 0
              · rw [convGo_step_boundaryNone _ _ _ _ _ _ _ _ _ _ hiw]
                refine ih (i + 1) [] sx sy
                  (res ++ [DrawableSpan.mk sx sy (b :: bs)]) hdrop2 ?_ ?_ ?_
                · exact Or.inr ⟨by omega, by simpa using hci⟩
                · intro cmd hm
                  rcases List.mem_append.mp hm with hm | hm
                  · obtain ⟨s, h1, h2⟩ := hres cmd hm
                    exact ⟨s, h1, by simp at h2 ⊢; omega⟩
                  · rw [List.mem_singleton] at hm
                    subst hm
                    refine ⟨i - (b :: bs).length, hcmd, ?_⟩
                    have hll : (b :: bs).length = bs.length + 1 :=
                      List.length_cons b bs
                    simp only [List.length_cons, List.length_nil, Nat.sub_zero]
                    omega
                · exact pairwise_append_emit res _ _ hcmd
                    (fun cc hc => (hres cc hc).imp (fun s h => ⟨h.1, h.2⟩)) hpw
              · rw [convGo_step_gapFlush _ _ _ _ _ _ _ _ _ _ hiw]
                refine ih (i + 1) [] sx sy
                  (res ++ [DrawableSpan.mk sx sy (b :: bs)]) hdrop2 ?_ ?_ ?_
                · exact Or.inr ⟨by omega, by simpa using hci⟩
                · intro cmd hm
                  rcases List.mem_append.mp hm with hm | hm
                  · obtain ⟨s, h1, h2⟩ := hres cmd hm
                    exact ⟨s, h1, by simp at h2 ⊢; omega⟩
                  · rw [List.mem_singleton] at hm
                    subst hm
                    refine ⟨i - (b :: bs).length, hcmd, ?_⟩
                    have hll : (b :: bs).length = bs.length + 1 :=
                      List.length_cons b bs
                    simp only [List.length_cons, List.length_nil, Nat.sub_zero]
                    omega
                · exact pairwise_append_emit res _ _ hcmd
                    (fun cc hc => (hres cc hc).imp (fun s h => ⟨h.1, h.2⟩)) hpw

/-- C8.  For every frame buffer (any cell grid of row width `w ≥ 1`), each
extracted paint command is characterized by `CmdAt`: it is non-empty, all
its cells are non-empty cells of the buffer (so commands never describe
empty cells), it fits inside a single row, and it is flanked by a row
boundary or an empty cell on both sides (maximality).  Moreover no two
commands on the same row are adjacent or overlapping: any two commands on
one row are separated by at least one empty cell. -/
theorem c8_paint_commands (w rbx rby : Nat) (cells : List (Option Cell))
    (hw : 1 ≤ w) :
    (∀ cmd ∈ convertToSpans w rbx rby cells,
      ∃ s, CmdAt w rbx rby cells s cmd) ∧
    (convertToSpans w rbx rby cells).Pairwise
      (fun c1 c2 => c1.y = c2.y → c1.x + c1.cells.length < c2.x) := by
  obtain ⟨hall, hpw⟩ := convGo_spec w rbx rby cells hw cells 0 [] rbx rby []
    rfl (Or.inl (Nat.zero_mod w)) (by intro cmd hm; cases hm) List.Pairwise.nil
  refine ⟨hall, ?_⟩
  apply List.Pairwise.imp_of_mem ?_ hpw
  intro c1 c2 h1m h2m hbefore hy
  obtain ⟨s1, hc1⟩ := hall c1 h1m
  obtain ⟨s2, hc2⟩ := hall c2 h2m
  have hle := hbefore s1 s2 hc1 hc2
  have hx1 := hc1.1
  have hy1 := hc1.2.1
  have hne1 := hc1.2.2.1
  have hx2 := hc2.1
  have hy2 := hc2.2.1
  have hflank2 := hc2.2.2.2.2.2.1
  have hlen1 : 1 ≤ c1.cells.length := List.length_pos.mpr hne1
  have hq : s1 / w = s2 / w := by omega
  have hd1 := Nat.div_add_mod s1 w
  have hd2 := Nat.div_add_mod s2 w
  have hqq : w * (s1 / w) = w * (s2 / w) := by rw [hq]
  have hmle : s1 % w + c1.cells.length ≤ s2 % w := by omega
  rcases Nat.lt_or_ge (s1 % w + c1.cells.length) (s2 % w) with hlt | hge
  · omega
  · exfalso
    have heq : s1 % w + c1.cells.length = s2 % w := by omega
    have hs2eq : s1 + c1.cells.length = s2 := by omega
    rcases hflank2 with h0 | hsome
    · omega
    · have hlast := cmdAt_get hc1 (c1.cells.length - 1) (by omega)
      have hidx : s1 + (c1.cells.length - 1) = s2 - 1 := by omega
      rw [hidx, hsome.2] at hlast
      cases hgot : c1.cells[c1.cells.length - 1]? with
      | none => rw [hgot] at hlast; simp at hlast
      | some cc => rw [hgot] at hlast; simp at hlast

/-- C8 witness: the characterization at the concrete Scenario D frame. -/
theorem c8_witness :
    (∀ cmd ∈ convertToSpans 3 0 0 frameD,
      ∃ s, CmdAt 3 0 0 frameD s cmd) ∧
    (convertToSpans 3 0 0 frameD).Pairwise
      (fun c1 c2 => c1.y = c2.y → c1.x + c1.cells.length < c2.x) :=
  c8_paint_commands 3 0 0 frameD (by decide)
